import Mathlib

/-!
Verification development for the `optparse2` overlay (a thin customization
layer over Python's `optparse`).

Modelling conventions:
* Python byte strings are modelled as `List Char` (`PyStr`); Python 2 string
  comparison is byte-wise lexicographic, modelled by `pyStrLt`.
* Python objects live in a heap `Nat → Opt` addressed by ids; the parser's
  two lookup dictionaries `_short_opt` / `_long_opt` are association lists
  mapping a flag spelling to the id of the option that claims it (Python
  dict semantics: insertion overwrites, deletion removes the key).
* Fallible operations return `Except Unit _` (a raised `KeyError`) or pair
  the new state with an `AddResult` (a raised `OptionConflictError` leaves
  the mutations of the preceding conflict-resolution pre-pass in place,
  exactly as in Python, where the exception propagates after mutation).
* `optparse` itself is an external collaborator; the small parts of its
  behaviour that the overlay relies on (`OptionContainer.add_option`'s
  conflict check and index registration, the `NO_DEFAULT` marker
  `("NO", "DEFAULT")` for an absent default, `HelpFormatter.expand_default`)
  are embedded from the Python 2.7 standard library.
-/

namespace Optparse2

/-- Python strings as lists of characters. -/
abbrev PyStr := List Char

/-- Byte-wise lexicographic `<` of Python 2 strings. -/
def pyStrLt : PyStr → PyStr → Bool
  | [], [] => false
  | [], _ :: _ => true
  | _ :: _, [] => false
  | a :: s, b :: t => if a < b then true else if b < a then false else pyStrLt s t

/-- A single-quote character, built from its ASCII code. -/
def squote : Char := Char.ofNat 39

/-- Python values that can sit in an `Option.default` attribute.
`noDefault` is optparse's marker `NO_DEFAULT = ("NO", "DEFAULT")` that an
option carries when the registration supplied no `default` keyword. -/
inductive PyDefault
  | noDefault
  | pyNone
  | pyString (s : PyStr)
  | pyInt (n : Int)
deriving DecidableEq, Inhabited

/-- Python `str()` of a default value: `str(("NO", "DEFAULT"))` renders the
tuple, `str(None)` is `"None"`. -/
def strOfDefault : PyDefault → PyStr
  | .noDefault =>
      "(".toList ++ [squote] ++ "NO".toList ++ [squote] ++ ", ".toList ++
        [squote] ++ "DEFAULT".toList ++ [squote] ++ ")".toList
  | .pyNone => "None".toList
  | .pyString s => s
  | .pyInt n => (toString n).toList

/-- An `optparse.Option` object: flag spellings, destination, action kind,
default value and help text.  A Python `help`/`dest` of `None` and of `''`
are both falsy and are treated identically by every modelled operation, so
`help` conflates them as `[]` while `dest` keeps the distinction. -/
structure Opt where
  shortOpts : List PyStr
  longOpts : List PyStr
  dest : Option PyStr
  action : PyStr
  default : PyDefault
  help : PyStr
deriving DecidableEq, Inhabited

/-- An `optparse.OptionGroup`: a title and the ordered ids of its options. -/
structure PGroup where
  title : PyStr
  option_list : List Nat
deriving DecidableEq, Inhabited

/-- The state of an `OptionParser`: the object heap, a fresh-id counter, the
root `option_list`, the groups, the two flag-spelling indexes (shared by the
parser and all its groups, as in optparse), and the version string. -/
structure Parser where
  heap : Nat → Opt
  nextId : Nat
  option_list : List Nat
  groups : List PGroup
  short_opt : List (PyStr × Nat)
  long_opt : List (PyStr × Nat)
  version : PyStr

/-- Dictionary read: `d[s]` / `s in d`. -/
def dictGet : List (PyStr × Nat) → PyStr → Option Nat
  | [], _ => none
  | (k, v) :: d, s => if k = s then some v else dictGet d s

/-- Dictionary deletion: `del d[s]`. -/
def dictDel (d : List (PyStr × Nat)) (s : PyStr) : List (PyStr × Nat) :=
  d.filter (fun e => e.1 ≠ s)

/-- Dictionary write: `d[s] = i`. -/
def dictPut (d : List (PyStr × Nat)) (s : PyStr) (i : Nat) : List (PyStr × Nat) :=
  (s, i) :: dictDel d s

/-- Register several keys to the same id: `for opt in opts: d[opt] = i`. -/
def registerKeys (d : List (PyStr × Nat)) (keys : List PyStr) (i : Nat) : List (PyStr × Nat) :=
  keys.foldl (fun d s => dictPut d s i) d

/-- Point update of the object heap. -/
def updateFn (h : Nat → Opt) (i : Nat) (f : Opt → Opt) : Nat → Opt :=
  fun j => if j = i then f (h j) else h j

/-- optparse classifies an option string as long iff it starts with `--`. -/
def isLongSpelling (s : PyStr) : Bool :=
  "--".toList.isPrefixOf s

/-- Outcome of `OptionContainer.add_option`: normal return, or a raised
`OptionConflictError` from optparse's `_check_conflict` (the default
`conflict_handler="error"`). -/
inductive AddResult
  | ok
  | conflictError
deriving DecidableEq

/-- The keyword arguments of a registration that matter here. -/
structure OptAttrs where
  dest : Option PyStr
  action : PyStr
  default : PyDefault
  help : PyStr
deriving DecidableEq, Inhabited

/-- One iteration of the conflict-resolution pre-pass of the overlay's
`OptionContainer.add_option` (src lines 117-135): if the incoming spelling is
claimed in `_short_opt` (or, failing that, `_long_opt`) and the claiming
option has more than one total flag spelling, strip the spelling from that
option and delete it from the index; otherwise leave everything alone. -/
def resolveConflictStep (p : Parser) (s : PyStr) : Parser :=
  match dictGet p.short_opt s with
  | some i =>
      if (p.heap i).shortOpts.length + (p.heap i).longOpts.length > 1 then
        { p with
            heap := updateFn p.heap i (fun o => { o with shortOpts := o.shortOpts.erase s }),
            short_opt := dictDel p.short_opt s }
      else p
  | none =>
      match dictGet p.long_opt s with
      | some i =>
          if (p.heap i).shortOpts.length + (p.heap i).longOpts.length > 1 then
            { p with
                heap := updateFn p.heap i (fun o => { o with longOpts := o.longOpts.erase s }),
                long_opt := dictDel p.long_opt s }
          else p
      | none => p

/-- The underlying engine's `optparse.OptionContainer.add_option`: build the
option from the positional option strings and keyword arguments, run
`_check_conflict` (raising on any still-claimed spelling), then append the
new option to `option_list` and claim all its spellings in the indexes. -/
def addOptionCore (p : Parser) (args : List PyStr) (attrs : OptAttrs) : Parser × AddResult :=
  let shorts := args.filter (fun s => !(isLongSpelling s))
  let longs := args.filter (fun s => isLongSpelling s)
  if shorts.any (fun s => (dictGet p.short_opt s).isSome) ||
      longs.any (fun s => (dictGet p.long_opt s).isSome) then
    (p, .conflictError)
  else
    let i := p.nextId
    let newOpt : Opt :=
      { shortOpts := shorts, longOpts := longs, dest := attrs.dest,
        action := attrs.action, default := attrs.default, help := attrs.help }
    ({ p with
        heap := updateFn p.heap i (fun _ => newOpt),
        option_list := p.option_list ++ [i],
        short_opt := registerKeys p.short_opt shorts i,
        long_opt := registerKeys p.long_opt longs i,
        nextId := i + 1 }, .ok)

/-- The overlay's `OptionContainer.add_option` (src lines 106-138): run the
conflict-resolution pre-pass over every incoming spelling, then call the
original optparse method.  On a conflict the exception propagates but the
pre-pass mutations persist, hence the returned state is the pre-passed one. -/
def add_option (p : Parser) (args : List PyStr) (attrs : OptAttrs) : Parser × AddResult :=
  addOptionCore (args.foldl resolveConflictStep p) args attrs

/-- The per-option test `option.dest and option.dest == name` (a `dest` of
`None` or `''` is falsy). -/
def destMatches (o : Opt) (name : PyStr) : Bool :=
  match o.dest with
  | some d => !d.isEmpty && d == name
  | none => false

/-- `OptionContainer.get_option_by_name` (src lines 91-104): scan the
receiver's `option_list` for a matching destination, then fall back to the
long index under `'--'+name`, then the short index under `'-'+name`. -/
def get_option_by_name (p : Parser) (name : PyStr) : Option Nat :=
  match p.option_list.find? (fun i => destMatches (p.heap i) name) with
  | some i => some i
  | none =>
      match dictGet p.long_opt ("--".toList ++ name) with
      | some i => some i
      | none => dictGet p.short_opt ("-".toList ++ name)

/-- A reference to a container: the parser root or the k-th option group. -/
inductive ContRef
  | root
  | grp (k : Nat)
deriving DecidableEq

/-- The ordered option list owned by a container. -/
def getCList (p : Parser) (r : ContRef) : List Nat :=
  match r with
  | .root => p.option_list
  | .grp k => ((p.groups.get? k).map PGroup.option_list).getD []

/-- Replace the option list of the k-th group. -/
def setGroupList : List PGroup → Nat → List Nat → List PGroup
  | [], _, _ => []
  | g :: gs, 0, l => { g with option_list := l } :: gs
  | g :: gs, k + 1, l => g :: setGroupList gs k l

/-- Replace the option list owned by a container. -/
def setCList (p : Parser) (r : ContRef) (l : List Nat) : Parser :=
  match r with
  | .root => { p with option_list := l }
  | .grp k => { p with groups := setGroupList p.groups k l }

/-- `OptionParser.move_option` (src lines 266-284): resolve the name through
`self.get_option_by_name` (`self` is the parser, whatever the source is),
look the resolved option up positionally in the source's `option_list`
(`KeyError` if the resolution returned `None` or the option is not there),
then pop it from the source list and append it to the destination list.
`source=None` defaults to the parser root. -/
def move_option (p : Parser) (name : PyStr) (dst : ContRef) (srcArg : Option ContRef) : Except Unit Parser :=
  let src := srcArg.getD .root
  match get_option_by_name p name with
  | none => .error ()
  | some oid =>
      if oid ∈ getCList p src then
        let p1 := setCList p src ((getCList p src).erase oid)
        .ok (setCList p1 dst (getCList p1 dst ++ [oid]))
      else .error ()

/-! ### Help-text augmentation (src lines 237-264) -/

/-- The literal substring `%default`. -/
def pdTag : PyStr := "%default".toList

/-- The literal text `Default: %default` appended to help strings. -/
def dTag : PyStr := "Default: %default".toList

/-- The punctuation step of the augmentation: append a period unless the help
already ends in `.` or `!`.  (The augmentation only ever runs on a non-empty
help string, which Python indexes as `o.help[-1]`; `getLastD` totalizes.) -/
def augBase (h : PyStr) : PyStr :=
  if h.getLastD ' ' = '.' ∨ h.getLastD ' ' = '!' then h else h ++ ['.']

/-- The help-string rewrite of `_add_default_values` (src lines 260-264):
append a period unless the text ends in `.` or `!`, append a space unless it
ends in one, then append `Default: %default`. -/
def augmentHelp (h : PyStr) : PyStr :=
  let h1 := if h.getLastD ' ' = '.' ∨ h.getLastD ' ' = '!' then h else h ++ ['.']
  let h2 := if h1.getLastD ' ' ≠ ' ' then h1 ++ [' '] else h1
  h2 ++ dTag

/-- The guard of `_add_default_values` (src lines 257-258): non-falsy help
that does not contain `%default`, a `store` action, and a default whose
`str()` is non-empty. -/
def augCond (o : Opt) : Prop :=
  o.help ≠ [] ∧ ¬ (pdTag <:+: o.help) ∧ o.action = "store".toList ∧ strOfDefault o.default ≠ []

instance (o : Opt) : Decidable (augCond o) := by
  unfold augCond
  exact inferInstance

/-- The per-option body of `_add_default_values`: rewrite the help string
when the guard holds, leave the option alone otherwise. -/
def stepHelp (o : Opt) : Opt :=
  if augCond o then { o with help := augmentHelp o.help } else o

/-- `OptionParser._add_default_values(op)` (src lines 246-264), acting on the
heap over the option ids of one container. -/
def addDefaultValuesOver (h : Nat → Opt) (ids : List Nat) : Nat → Opt :=
  ids.foldl (fun h i => updateFn h i stepHelp) h

/-- `OptionParser.add_all_default_values` (src lines 237-244): augment the
root container, then every group, in order. -/
def add_all_default_values (p : Parser) : Parser :=
  let h1 := addDefaultValuesOver p.heap p.option_list
  let h2 := p.groups.foldl (fun h g => addDefaultValuesOver h g.option_list) h1
  { p with heap := h2 }

/-! ### Sorting for help rendering (src lines 185-221) -/

/-- `OptionParser.cmp_opts` (src lines 185-204): compare two options by the
first short spelling without its dash if one exists, else the first long
spelling without its double dash; `0` on equal keys, else `-1`/`1` by
lexicographic byte order.  (The source indexes `_long_opts[0]` assuming every
option keeps at least one spelling; `headD []` totalizes that read.) -/
def cmp_opts (a b : Opt) : Int :=
  let aname := if a.shortOpts.length > 0 then (a.shortOpts.headD []).drop 1
               else (a.longOpts.headD []).drop 2
  let bname := if b.shortOpts.length > 0 then (b.shortOpts.headD []).drop 1
               else (b.longOpts.headD []).drop 2
  if aname = bname then 0 else if pyStrLt aname bname then -1 else 1

/-- The group comparator of `print_help` (src lines 218-219): the lambda
`-1 if a.title < b.title else 1`. -/
def cmp_groups (a b : PGroup) : Int :=
  if pyStrLt a.title b.title then -1 else 1

/-- The sorting phase of `OptionParser.print_help` (src lines 216-221): sort
the root option list with `cmp_opts`, sort the groups with the title lambda,
then sort each group's option list with `cmp_opts`.  Python 2's `list.sort`
with a comparator is a stable sort of the preorder `cmp(a,b) <= 0`; for a
consistent comparator every stable sort returns the same list, so it is
modelled by stable insertion sort. -/
def print_help_sort (p : Parser) : Parser :=
  let leOpt := fun i j => cmp_opts (p.heap i) (p.heap j) ≤ 0
  let opts := List.insertionSort leOpt p.option_list
  let gs := List.insertionSort (fun a b => cmp_groups a b ≤ 0) p.groups
  let gs2 := gs.map (fun g => { g with option_list := List.insertionSort leOpt g.option_list })
  { p with option_list := opts, groups := gs2 }

/-! ### Walking and searching (src lines 324-347) -/

/-- `OptionParser.walk` (src lines 324-334): every option id, root first,
then the groups in order. -/
def walkIds (p : Parser) : List Nat :=
  p.option_list ++ (p.groups.map PGroup.option_list).flatten

/-- The per-option disjunction of `search_option` (src lines 342-344):
matching destination, or `'--'+name` among the long spellings, or `'-'+name`
among the short ones. -/
def searchMatches (o : Opt) (name : PyStr) : Bool :=
  destMatches o name || o.longOpts.contains ("--".toList ++ name) ||
    o.shortOpts.contains ("-".toList ++ name)

/-- `OptionParser.search_option` (src lines 336-347): the first option in
walk order satisfying the disjunction, `False` (here `none`) otherwise. -/
def search_option (p : Parser) (name : PyStr) : Option Nat :=
  (walkIds p).find? (fun i => searchMatches (p.heap i) name)

/-! ### The constructor (src lines 156-183) -/

/-- Attributes of optparse's built-in version option (`--version`,
`action="version"`). -/
def versionAttrs : OptAttrs :=
  { dest := none, action := "version".toList, default := .noDefault,
    help := "show program version number and exit".toList }

/-- Attributes of the overridden help option (src lines 229-235):
`add_option('-?', '--help', action='help', ...)`. -/
def helpAttrs : OptAttrs :=
  { dest := none, action := "help".toList, default := .noDefault,
    help := "show this help message and exit".toList }

/-- The empty parser state an `optparse.OptionParser` starts from. -/
def initBase (version : PyStr) : Parser :=
  { heap := fun _ => default, nextId := 0, option_list := [], groups := [],
    short_opt := [], long_opt := [], version := version }

/-- The option-population part of `optparse.OptionParser.__init__`: the
version option is added only when the version string is truthy, then the
overridden help option. -/
def initPopulated (version : PyStr) : Parser :=
  let p1 := if version ≠ [] then (add_option (initBase version) ["--version".toList] versionAttrs).1
            else initBase version
  (add_option p1 ["-?".toList, "--help".toList] helpAttrs).1

/-- One constructor-time `move_option(name, og)` call with the parser root
as source and the not-yet-registered group `og` as destination: resolve the
name, pop the option from the root list (`KeyError` when resolution fails or
the option is not in the root list), and hand back the popped id so the
caller can append it to the fresh group's list. -/
def moveOutOfRoot (p : Parser) (name : PyStr) : Except Unit (Parser × Nat) :=
  match get_option_by_name p name with
  | none => .error ()
  | some oid =>
      if oid ∈ p.option_list then
        .ok ({ p with option_list := p.option_list.erase oid }, oid)
      else .error ()

/-- `OptionParser.__init__` (src lines 156-183): default the `version`
keyword to `' '` only when it is absent, let optparse populate the standard
options (`initPopulated`), and, unless `general=False`, create a
"General options" group, move the help and version options into it, and
register it.  A failed move raises `KeyError`. -/
def parserInit (versionArg : Option PyStr) (general : Bool) : Except Unit Parser :=
  let version := versionArg.getD " ".toList
  let p2 := initPopulated version
  if general then
    match moveOutOfRoot p2 "help".toList with
    | .error _ => .error ()
    | .ok (p3, hid) =>
        match moveOutOfRoot p3 "version".toList with
        | .error _ => .error ()
        | .ok (p4, vid) =>
            .ok { p4 with groups := p4.groups ++ [⟨"General options".toList, [hid, vid]⟩] }
  else .ok p2

/-! ### The renderer's default substitution (external collaborator) -/

/-- `IndentedHelpFormatterWithNL.NO_DEFAULT_VALUE` (src line 360): the
overlay overrides optparse's `"none"` with `"None"`. -/
def NO_DEFAULT_VALUE : PyStr := "None".toList

/-- Python `str.replace`: replace every non-overlapping occurrence of `pat`
left to right (only ever used with a non-empty pattern here; an empty
pattern is a no-op in this model). -/
def replaceAll (pat rep : PyStr) : PyStr → PyStr
  | [] => []
  | c :: t =>
      if h : pat ≠ [] ∧ pat <+: (c :: t) then rep ++ replaceAll pat rep ((c :: t).drop pat.length)
      else c :: replaceAll pat rep t
termination_by s => s.length
decreasing_by
  · have hp : 1 ≤ pat.length := by
      cases hpat : pat with
      | nil => exact absurd hpat h.1
      | cons a l => simp
    simp only [List.length_drop, List.length_cons]
    omega
  · simp only [List.length_cons]
    omega

/-- `optparse.HelpFormatter.expand_default` with the overridden
`NO_DEFAULT_VALUE`: substitute `%default` in the help text by the string
form of `self.parser.defaults.get(option.dest)`, using `NO_DEFAULT_VALUE`
when that stored value is missing, `None`, or the `NO_DEFAULT` marker. -/
def expand_default (storedDefault : Option PyDefault) (help : PyStr) : PyStr :=
  let dv : PyStr :=
    match storedDefault with
    | none => NO_DEFAULT_VALUE
    | some .pyNone => NO_DEFAULT_VALUE
    | some .noDefault => NO_DEFAULT_VALUE
    | some d => strOfDefault d
  replaceAll pdTag dv help

/-! ### Derived notions used by the claims -/

/-- All option ids held by containers of the parser. -/
def allIds (p : Parser) : List Nat :=
  p.option_list ++ (p.groups.map PGroup.option_list).flatten

/-- An option that still holds at least one flag spelling. -/
def spelled (o : Opt) : Prop :=
  o.shortOpts.length + o.longOpts.length ≥ 1

instance (o : Opt) : Decidable (spelled o) := by
  unfold spelled
  exact inferInstance

/-- The data-model invariant of the spec: every option in any container, and
every option claimed by a lookup index, retains at least one flag spelling. -/
def SpellInv (p : Parser) : Prop :=
  (∀ i ∈ allIds p, spelled (p.heap i)) ∧
    (∀ e ∈ p.short_opt, spelled (p.heap e.2)) ∧
    (∀ e ∈ p.long_opt, spelled (p.heap e.2))

/-- Basic well-formedness of a parser state: container lists and index
entries only reference already-allocated ids, and the two indexes are keyed
by spellings of their own shape. -/
def WfState (p : Parser) : Prop :=
  (∀ i ∈ p.option_list, i < p.nextId) ∧
    (∀ g ∈ p.groups, ∀ i ∈ g.option_list, i < p.nextId) ∧
    (∀ e ∈ p.short_opt, e.2 < p.nextId ∧ isLongSpelling e.1 = false) ∧
    (∀ e ∈ p.long_opt, e.2 < p.nextId ∧ isLongSpelling e.1 = true)

/-- The sort key the spec ascribes to `cmp_opts`. -/
def optKey (o : Opt) : PyStr :=
  if o.shortOpts.length > 0 then (o.shortOpts.headD []).drop 1
  else (o.longOpts.headD []).drop 2

/-- A container reference is valid when it denotes the root or an existing
group. -/
def validRef (p : Parser) : ContRef → Prop
  | .root => True
  | .grp k => k < p.groups.length

instance (p : Parser) : (r : ContRef) → Decidable (validRef p r)
  | .root => .isTrue trivial
  | .grp k => inferInstanceAs (Decidable (k < p.groups.length))

/-- Modelled from the spec: the staged name-resolution rule the spec's
lookup-by-name wording ascribes to `moveOption` and `searchByName` —
destination names first over the whole id list, then the name read as a
long flag, then as a short flag.  The source code does not have this
function; it is the comparison point for the refinement-style claims. -/
def resolveInListSpec (p : Parser) (l : List Nat) (name : PyStr) : Option Nat :=
  match l.find? (fun i => destMatches (p.heap i) name) with
  | some i => some i
  | none =>
      match l.find? (fun i => (p.heap i).longOpts.contains ("--".toList ++ name)) with
      | some i => some i
      | none => l.find? (fun i => (p.heap i).shortOpts.contains ("-".toList ++ name))

/-- Number of (possibly overlapping) occurrences of `pat` as a contiguous
substring: one per position where `pat` is a prefix of the corresponding
suffix. -/
def countOcc (pat : PyStr) : PyStr → Nat
  | [] => if pat <+: ([] : PyStr) then 1 else 0
  | c :: t => (if pat <+: (c :: t) then 1 else 0) + countOcc pat t

/-! ## Order lemmas for `pyStrLt` -/

theorem pyStrLt_irrefl : ∀ a : PyStr, pyStrLt a a = false
  | [] => rfl
  | c :: s => by
      simp only [pyStrLt, lt_irrefl, if_false]
      exact pyStrLt_irrefl s

theorem pyStrLt_trans : ∀ a b c : PyStr,
    pyStrLt a b = true → pyStrLt b c = true → pyStrLt a c = true
  | [], _ :: _, _ :: _, _, _ => rfl
  | [], [], _, h, _ => by simp [pyStrLt] at h
  | _ :: _, [], _, h, _ => by simp [pyStrLt] at h
  | _ :: _, _ :: _, [], _, h2 => by simp [pyStrLt] at h2
  | a :: s, b :: t, c :: u, h, h2 => by
      simp only [pyStrLt] at h h2 ⊢
      rcases lt_trichotomy a b with hab | hab | hab
      · rcases lt_trichotomy b c with hbc | hbc | hbc
        · have hac : a < c := lt_trans hab hbc
          simp [hac]
        · subst hbc
          simp [hab]
        · simp [hbc, asymm hbc] at h2
      · subst hab
        simp only [lt_irrefl, if_false] at h
        rcases lt_trichotomy a c with hac | hac | hac
        · simp [hac]
        · subst hac
          simp only [lt_irrefl, if_false] at h2 ⊢
          exact pyStrLt_trans s t u h h2
        · simp [hac, asymm hac] at h2
      · simp [hab, asymm hab] at h

theorem pyStrLt_eq_of_not_lt : ∀ a b : PyStr,
    pyStrLt a b = false → pyStrLt b a = false → a = b
  | [], [], _, _ => rfl
  | [], _ :: _, h, _ => by simp [pyStrLt] at h
  | _ :: _, [], _, h2 => by simp [pyStrLt] at h2
  | a :: s, b :: t, h, h2 => by
      simp only [pyStrLt] at h h2
      rcases lt_trichotomy a b with hab | hab | hab
      · simp [hab] at h
      · subst hab
        simp only [lt_irrefl, if_false] at h h2
        rw [pyStrLt_eq_of_not_lt s t h h2]
      · simp [hab, asymm hab] at h2

/-! ## Dictionary lemmas -/

theorem dictGet_dictDel (d : List (PyStr × Nat)) (s t : PyStr) :
    dictGet (dictDel d s) t = if t = s then none else dictGet d t := by
  induction d with
  | nil => simp [dictGet, dictDel]
  | cons e d ih =>
      obtain ⟨k, v⟩ := e
      by_cases hks : k = s
      · subst hks
        simp only [dictDel, List.filter_cons, ne_eq, not_true_eq_false, decide_False,
          Bool.false_eq_true, if_false]
        rw [show List.filter (fun e => decide ¬(e.1 = k)) d = dictDel d k from rfl, ih]
        by_cases hts : t = k
        · simp [hts, dictGet]
        · simp only [hts, if_false, dictGet]
          rw [if_neg (fun h => hts h.symm)]
      · simp only [dictDel, List.filter_cons, ne_eq, hks, not_false_eq_true, decide_True,
          if_true]
        rw [show (k, v) :: List.filter (fun e => decide ¬(e.1 = s)) d
              = (k, v) :: dictDel d s from rfl]
        simp only [dictGet]
        by_cases htk : k = t
        · subst htk
          simp [hks]
        · simp only [htk, if_false]
          exact ih

theorem dictGet_dictPut (d : List (PyStr × Nat)) (s : PyStr) (i : Nat) (t : PyStr) :
    dictGet (dictPut d s i) t = if t = s then some i else dictGet d t := by
  simp only [dictPut, dictGet]
  rw [dictGet_dictDel]
  by_cases hts : t = s
  · subst hts
    simp
  · rw [if_neg (fun h => hts h.symm), if_neg hts, if_neg hts]

theorem dictGet_registerKeys (d : List (PyStr × Nat)) (keys : List PyStr) (i : Nat) (t : PyStr) :
    dictGet (registerKeys d keys i) t = if t ∈ keys then some i else dictGet d t := by
  induction keys generalizing d with
  | nil => simp [registerKeys]
  | cons k ks ih =>
      simp only [registerKeys, List.foldl_cons] at *
      rw [ih]
      by_cases htks : t ∈ ks
      · simp [htks, List.mem_cons]
      · rw [if_neg htks, dictGet_dictPut]
        by_cases htk : t = k
        · simp [htk]
        · simp [htk, htks]

theorem dictGet_mem {d : List (PyStr × Nat)} {s : PyStr} {i : Nat}
    (h : dictGet d s = some i) : (s, i) ∈ d := by
  induction d with
  | nil => simp [dictGet] at h
  | cons e d ih =>
      obtain ⟨k, v⟩ := e
      simp only [dictGet] at h
      by_cases hks : k = s
      · subst hks
        rw [if_pos rfl] at h
        cases Option.some_inj.mp h
        exact List.mem_cons_self _ _
      · simp only [hks, if_false] at h
        exact List.mem_cons_of_mem _ (ih h)

theorem mem_dictDel {d : List (PyStr × Nat)} {s : PyStr} {e : PyStr × Nat}
    (h : e ∈ dictDel d s) : e ∈ d :=
  List.mem_of_mem_filter h

theorem mem_registerKeys {d : List (PyStr × Nat)} {keys : List PyStr} {i : Nat}
    {e : PyStr × Nat} (h : e ∈ registerKeys d keys i) : e.2 = i ∨ e ∈ d := by
  induction keys generalizing d with
  | nil => exact Or.inr h
  | cons k ks ih =>
      simp only [registerKeys, List.foldl_cons] at h
      rcases ih h with h1 | h2
      · exact Or.inl h1
      · rcases List.mem_cons.mp h2 with h3 | h4
        · subst h3
          exact Or.inl rfl
        · exact Or.inr (mem_dictDel h4)

/-! ## Substring lemmas -/

theorem not_infix_concat {pat g : PyStr} {c : Char} (hne : pat ≠ [])
    (hlast : pat.getLast? ≠ some c) (hg : ¬ pat <:+: g) : ¬ pat <:+: g ++ [c] := by
  intro hinf
  have hrev : pat.reverse <:+: (g ++ [c]).reverse := List.reverse_infix.mpr hinf
  rw [List.reverse_append, List.reverse_singleton, List.singleton_append] at hrev
  rcases List.infix_cons_iff.mp hrev with hpre | hsuf
  · rcases hpre with ⟨tl, htl⟩
    cases hrevpat : pat.reverse with
    | nil => exact hne (by simpa using congrArg List.reverse hrevpat)
    | cons d r =>
        rw [hrevpat] at htl
        have hd : d = c := by
          have := congrArg List.head? htl
          simpa using this
        have hhead : pat.getLast? = some d := by
          rw [← List.head?_reverse, hrevpat]
          rfl
        exact hlast (hd ▸ hhead)
  · exact hg (List.reverse_infix.mp hsuf)

theorem not_prefix_append {pat g S : PyStr} (hgne : g ≠ []) (hginf : ¬ pat <:+: g)
    (hS : ∀ k < pat.length, 0 < k → ¬ pat.drop k <+: S) : ¬ pat <+: g ++ S := by
  intro hpre
  by_cases hlen : pat.length ≤ g.length
  · apply hginf
    have htake : pat = (g ++ S).take pat.length := List.prefix_iff_eq_take.mp hpre
    rw [List.take_append_of_le_length hlen] at htake
    exact List.IsPrefix.isInfix (htake ▸ List.take_prefix pat.length g)
  · push_neg at hlen
    have hgp : g <+: pat :=
      List.prefix_of_prefix_length_le (List.prefix_append g S) hpre (le_of_lt hlen)
    rcases hgp with ⟨d, hd⟩
    have hdrop : d = pat.drop g.length := by
      rw [← hd, List.drop_left]
    have hdS : d <+: S := by
      rcases hpre with ⟨tl, htl⟩
      rw [← hd, List.append_assoc] at htl
      exact ⟨tl, List.append_cancel_left htl⟩
    have hgpos : 0 < g.length := List.length_pos.mpr hgne
    exact hS g.length hlen hgpos (hdrop ▸ hdS)

theorem countOcc_append {pat g S : PyStr} (hginf : ¬ pat <:+: g)
    (hS : ∀ k < pat.length, 0 < k → ¬ pat.drop k <+: S) :
    countOcc pat (g ++ S) = countOcc pat S := by
  induction g with
  | nil => rfl
  | cons c g' ih =>
      have hg' : ¬ pat <:+: g' := fun h => hginf (List.infix_cons h)
      have hnp : ¬ pat <+: (c :: g') ++ S :=
        not_prefix_append (by simp) hginf hS
      rw [List.cons_append]
      show (if pat <+: c :: (g' ++ S) then 1 else 0) + countOcc pat (g' ++ S) = countOcc pat S
      rw [if_neg (by simpa using hnp), ih hg']
      exact Nat.zero_add _

theorem replaceAll_append {pat rep g S : PyStr} (hginf : ¬ pat <:+: g)
    (hS : ∀ k < pat.length, 0 < k → ¬ pat.drop k <+: S) :
    replaceAll pat rep (g ++ S) = g ++ replaceAll pat rep S := by
  induction g with
  | nil => rfl
  | cons c g' ih =>
      have hg' : ¬ pat <:+: g' := fun h => hginf (List.infix_cons h)
      have hnp : ¬ pat <+: (c :: g') ++ S :=
        not_prefix_append (by simp) hginf hS
      rw [List.cons_append, replaceAll]
      rw [dif_neg (by
        intro hcond
        exact hnp (by simpa using hcond.2))]
      rw [ih hg', List.cons_append]

/-! ## Augmentation lemmas -/

theorem augmentHelp_eq (h : PyStr) : augmentHelp h = augBase h ++ (' ' :: dTag) := by
  simp only [augmentHelp, augBase]
  by_cases hc : h.getLastD ' ' = '.' ∨ h.getLastD ' ' = '!'
  · rw [if_pos hc]
    have hlast : h.getLastD ' ' ≠ ' ' := by
      rcases hc with hc | hc <;> rw [hc] <;> decide
    rw [if_pos hlast, List.append_assoc]
    rfl
  · rw [if_neg hc]
    have hlast : (h ++ ['.']).getLastD ' ' ≠ ' ' := by
      rw [List.getLastD_concat]
      decide
    rw [if_pos hlast, List.append_assoc]
    rfl

theorem not_infix_augBase {pat h : PyStr} (hne : pat ≠ [])
    (hlast : pat.getLast? ≠ some '.') (hh : ¬ pat <:+: h) : ¬ pat <:+: augBase h := by
  unfold augBase
  by_cases hc : h.getLastD ' ' = '.' ∨ h.getLastD ' ' = '!'
  · rwa [if_pos hc]
  · rw [if_neg hc]
    exact not_infix_concat hne hlast hh

theorem pdTag_infix_dTag : pdTag <:+: (' ' :: dTag) := by decide

theorem pdTag_infix_augmentHelp (h : PyStr) : pdTag <:+: augmentHelp h := by
  rw [augmentHelp_eq]
  exact List.IsInfix.trans pdTag_infix_dTag
    (List.IsSuffix.isInfix (List.suffix_append (augBase h) (' ' :: dTag)))

theorem stepHelp_idem (o : Opt) : stepHelp (stepHelp o) = stepHelp o := by
  by_cases hc : augCond o
  · have h1 : stepHelp o = { o with help := augmentHelp o.help } := if_pos hc
    rw [h1]
    have h2 : ¬ augCond { o with help := augmentHelp o.help } := by
      intro hc2
      exact hc2.2.1 (pdTag_infix_augmentHelp o.help)
    exact if_neg h2
  · have h1 : stepHelp o = o := if_neg hc
    rw [h1, h1]

theorem addDefaultValuesOver_eq (h : Nat → Opt) (ids : List Nat) :
    addDefaultValuesOver h ids = fun i => if i ∈ ids then stepHelp (h i) else h i := by
  induction ids generalizing h with
  | nil =>
      funext i
      simp [addDefaultValuesOver]
  | cons x ids ih =>
      show addDefaultValuesOver (updateFn h x stepHelp) ids = _
      rw [ih]
      funext i
      by_cases hix : i = x
      · subst hix
        rw [if_pos (List.mem_cons_self i ids)]
        have hupd : updateFn h i stepHelp i = stepHelp (h i) := if_pos rfl
        by_cases hmem : i ∈ ids
        · rw [if_pos hmem, hupd, stepHelp_idem]
        · rw [if_neg hmem, hupd]
      · have hupd : updateFn h x stepHelp i = h i := if_neg hix
        by_cases hmem : i ∈ ids
        · rw [if_pos hmem, if_pos (List.mem_cons_of_mem x hmem), hupd]
        · rw [if_neg hmem, hupd,
            if_neg (fun hm => (List.mem_cons.mp hm).elim hix hmem)]

theorem foldGroups_eq (gs : List PGroup) (h : Nat → Opt) :
    gs.foldl (fun h g => addDefaultValuesOver h g.option_list) h
      = addDefaultValuesOver h (gs.map PGroup.option_list).flatten := by
  induction gs generalizing h with
  | nil => rfl
  | cons g gs ih =>
      rw [List.foldl_cons, ih, List.map_cons, List.flatten_cons]
      unfold addDefaultValuesOver
      rw [List.foldl_append]

theorem add_all_heap_eq (p : Parser) :
    (add_all_default_values p).heap
      = fun i => if i ∈ allIds p then stepHelp (p.heap i) else p.heap i := by
  show p.groups.foldl (fun h g => addDefaultValuesOver h g.option_list)
      (addDefaultValuesOver p.heap p.option_list) = _
  rw [foldGroups_eq]
  have hsplit : addDefaultValuesOver (addDefaultValuesOver p.heap p.option_list)
      (p.groups.map PGroup.option_list).flatten
      = addDefaultValuesOver p.heap
          (p.option_list ++ (p.groups.map PGroup.option_list).flatten) := by
    unfold addDefaultValuesOver
    rw [List.foldl_append]
  rw [hsplit]
  exact addDefaultValuesOver_eq p.heap (allIds p)

theorem add_all_option_list (p : Parser) :
    (add_all_default_values p).option_list = p.option_list := rfl

theorem add_all_groups (p : Parser) :
    (add_all_default_values p).groups = p.groups := rfl

theorem augmented_help_props (h : PyStr) (hnd : ¬ pdTag <:+: h) :
    dTag <:+ augmentHelp h ∧ countOcc dTag (augmentHelp h) = 1 ∧
      countOcc pdTag (augmentHelp h) = 1 := by
  have hdt : ¬ dTag <:+: h := fun hin =>
    hnd (List.IsInfix.trans (by decide : pdTag <:+: dTag) hin)
  have hdtb : ¬ dTag <:+: augBase h := not_infix_augBase (by decide) (by decide) hdt
  have hdtbs : ¬ dTag <:+: augBase h ++ [' '] :=
    not_infix_concat (by decide) (by decide) hdtb
  have hpb : ¬ pdTag <:+: augBase h := not_infix_augBase (by decide) (by decide) hnd
  have hsplit : augmentHelp h = (augBase h ++ [' ']) ++ dTag := by
    rw [augmentHelp_eq, List.append_assoc]
    rfl
  refine ⟨?_, ?_, ?_⟩
  · rw [hsplit]
    exact List.suffix_append _ _
  · rw [hsplit, countOcc_append hdtbs (by decide)]
    decide
  · rw [augmentHelp_eq, countOcc_append hpb (by decide)]
    decide

/-- Claim C3: for every option of the parser satisfying the augmentation
guard (`store` action, non-empty help lacking `%default`, default with a
non-empty string form), its help text after `add_all_default_values` ends in
the literal `Default: %default` and contains exactly one occurrence of that
substring (likewise exactly one occurrence of `%default`); every other
option's help text is unchanged. -/
theorem c3_default_augmentation (p : Parser) (i : Nat) (hmem : i ∈ allIds p) :
    (augCond (p.heap i) →
        dTag <:+ ((add_all_default_values p).heap i).help ∧
        countOcc dTag ((add_all_default_values p).heap i).help = 1 ∧
        countOcc pdTag ((add_all_default_values p).heap i).help = 1) ∧
    (¬ augCond (p.heap i) →
        ((add_all_default_values p).heap i).help = (p.heap i).help) := by
  have hstep : (add_all_default_values p).heap i = stepHelp (p.heap i) := by
    rw [add_all_heap_eq]
    exact if_pos hmem
  constructor
  · intro hc
    have hhelp : ((add_all_default_values p).heap i).help = augmentHelp (p.heap i).help := by
      rw [hstep, stepHelp, if_pos hc]
    rw [hhelp]
    exact augmented_help_props _ hc.2.1
  · intro hc
    rw [hstep, stepHelp, if_neg hc]

/-- Witness for C3 on a concrete parser with one eligible option. -/
def optW3 : Opt :=
  { shortOpts := ["-n".toList], longOpts := [], dest := some "n".toList,
    action := "store".toList, default := PyDefault.pyInt 7,
    help := "Number of things".toList }

def pW3 : Parser :=
  { heap := fun _ => optW3, nextId := 1, option_list := [0], groups := [],
    short_opt := [("-n".toList, 0)], long_opt := [], version := " ".toList }

theorem c3_default_augmentation_witness :
    dTag <:+ ((add_all_default_values pW3).heap 0).help ∧
    countOcc dTag ((add_all_default_values pW3).heap 0).help = 1 ∧
    countOcc pdTag ((add_all_default_values pW3).heap 0).help = 1 :=
  (c3_default_augmentation pW3 0 (by decide)).1 (by decide)

/-- Claim C4: running the help-text augmentation twice over the parser (root
container and all groups) produces exactly the state produced by running it
once. -/
theorem c4_augmentation_idempotent (p : Parser) :
    add_all_default_values (add_all_default_values p) = add_all_default_values p := by
  have hkey : (add_all_default_values (add_all_default_values p)).heap
      = (add_all_default_values p).heap := by
    rw [add_all_heap_eq (add_all_default_values p)]
    funext i
    have hall : allIds (add_all_default_values p) = allIds p := rfl
    rw [hall, add_all_heap_eq p]
    by_cases hmem : i ∈ allIds p
    · simp only [hmem, if_pos, if_true, stepHelp_idem]
    · simp only [hmem, if_neg, if_false]
  have h1 : add_all_default_values (add_all_default_values p)
      = { add_all_default_values p with
            heap := (add_all_default_values (add_all_default_values p)).heap } := rfl
  rw [h1, hkey]

/-- Claim C9 (amended): with a `store` action, non-empty help lacking
`%default`, and an absent default (optparse's `NO_DEFAULT` marker), the
augmentation still appends `Default: %default` — but because the string form
of the marker is the non-empty tuple rendering, not because it is `"None"`;
the renderer, whose `NO_DEFAULT_VALUE` the overlay overrides to `"None"`,
then substitutes `None` (the stored `parser.defaults` entry for such an
option is Python `None`). -/
theorem c9_absent_default (o : Opt) (ha : o.action = "store".toList) (hh : o.help ≠ [])
    (hnd : ¬ pdTag <:+: o.help) (hd : o.default = PyDefault.noDefault) :
    (stepHelp o).help = augBase o.help ++ (' ' :: dTag) ∧
    strOfDefault PyDefault.noDefault ≠ [] ∧
    strOfDefault PyDefault.noDefault ≠ NO_DEFAULT_VALUE ∧
    expand_default (some PyDefault.pyNone) ((stepHelp o).help)
      = augBase o.help ++ (" Default: ".toList ++ NO_DEFAULT_VALUE) := by
  have hc : augCond o := ⟨hh, hnd, ha, by rw [hd]; decide⟩
  have hhelp : (stepHelp o).help = augBase o.help ++ (' ' :: dTag) := by
    rw [stepHelp, if_pos hc]
    exact augmentHelp_eq o.help
  have hpb : ¬ pdTag <:+: augBase o.help := not_infix_augBase (by decide) (by decide) hnd
  refine ⟨hhelp, by decide, by decide, ?_⟩
  rw [hhelp]
  show replaceAll pdTag NO_DEFAULT_VALUE (augBase o.help ++ (' ' :: dTag)) = _
  rw [replaceAll_append hpb (by decide)]
  congr 1
  simp +decide [replaceAll, pdTag, dTag, NO_DEFAULT_VALUE]

/-- Witness option for C9: a `store` option with untouched absent default. -/
def o9 : Opt :=
  { shortOpts := ["-f".toList], longOpts := [], dest := some "f".toList,
    action := "store".toList, default := PyDefault.noDefault,
    help := "Frobnicate".toList }

theorem c9_absent_default_witness :
    (stepHelp o9).help = augBase o9.help ++ (' ' :: dTag) ∧
    expand_default (some PyDefault.pyNone) ((stepHelp o9).help)
      = augBase o9.help ++ (" Default: ".toList ++ NO_DEFAULT_VALUE) := by
  have h := c9_absent_default o9 rfl (by decide) (by decide) rfl
  exact ⟨h.1, h.2.2.2⟩

/-- Counterexample for C9 as stated: the absent-default marker's string form
is the tuple rendering, not the word `None`, even though the option meets
all the claim's conditions and is augmented. -/
theorem c9_counterexample :
    o9.default = PyDefault.noDefault ∧ augCond o9 ∧
      strOfDefault o9.default ≠ NO_DEFAULT_VALUE := by
  refine ⟨rfl, by decide, by decide⟩

/-! ## Comparator lemmas and the sorting claims -/

theorem cmp_opts_eq_key (a b : Opt) :
    cmp_opts a b
      = if optKey a = optKey b then 0
        else if pyStrLt (optKey a) (optKey b) then -1 else 1 := rfl

theorem cmp_opts_zero_iff (a b : Opt) :
    cmp_opts a b = 0 ↔ optKey a = optKey b := by
  rw [cmp_opts_eq_key]
  split_ifs with h1 h2 <;> simp_all [pyStrLt_irrefl]

theorem cmp_opts_neg_iff (a b : Opt) :
    cmp_opts a b = -1 ↔ pyStrLt (optKey a) (optKey b) = true := by
  rw [cmp_opts_eq_key]
  split_ifs with h1 h2 <;> simp_all [pyStrLt_irrefl]

theorem cmp_opts_one_iff (a b : Opt) :
    cmp_opts a b = 1 ↔ (optKey a ≠ optKey b ∧ pyStrLt (optKey a) (optKey b) = false) := by
  rw [cmp_opts_eq_key]
  split_ifs with h1 h2 <;> simp_all [pyStrLt_irrefl]

theorem cmp_opts_le_iff (a b : Opt) :
    cmp_opts a b ≤ 0 ↔ (optKey a = optKey b ∨ pyStrLt (optKey a) (optKey b) = true) := by
  rw [cmp_opts_eq_key]
  split_ifs with h1 h2 <;> simp_all [pyStrLt_irrefl]

theorem cmp_opts_le_total (a b : Opt) : cmp_opts a b ≤ 0 ∨ cmp_opts b a ≤ 0 := by
  by_cases heq : optKey a = optKey b
  · exact Or.inl ((cmp_opts_le_iff a b).mpr (Or.inl heq))
  · cases hlt : pyStrLt (optKey a) (optKey b) with
    | true => exact Or.inl ((cmp_opts_le_iff a b).mpr (Or.inr hlt))
    | false =>
        cases hlt2 : pyStrLt (optKey b) (optKey a) with
        | true => exact Or.inr ((cmp_opts_le_iff b a).mpr (Or.inr hlt2))
        | false => exact absurd (pyStrLt_eq_of_not_lt _ _ hlt hlt2) heq

theorem cmp_opts_le_trans {a b c : Opt} (h1 : cmp_opts a b ≤ 0) (h2 : cmp_opts b c ≤ 0) :
    cmp_opts a c ≤ 0 := by
  rcases (cmp_opts_le_iff a b).mp h1 with he1 | hl1
  · rcases (cmp_opts_le_iff b c).mp h2 with he2 | hl2
    · exact (cmp_opts_le_iff a c).mpr (Or.inl (he1.trans he2))
    · exact (cmp_opts_le_iff a c).mpr (Or.inr (he1 ▸ hl2))
  · rcases (cmp_opts_le_iff b c).mp h2 with he2 | hl2
    · exact (cmp_opts_le_iff a c).mpr (Or.inr (he2 ▸ hl1))
    · exact (cmp_opts_le_iff a c).mpr (Or.inr (pyStrLt_trans _ _ _ hl1 hl2))

theorem print_help_sort_option_list (p : Parser) :
    (print_help_sort p).option_list
      = List.insertionSort (fun i j => cmp_opts (p.heap i) (p.heap j) ≤ 0) p.option_list := rfl

theorem print_help_sort_groups (p : Parser) :
    (print_help_sort p).groups
      = (List.insertionSort (fun a b => cmp_groups a b ≤ 0) p.groups).map
          (fun g => { g with
            option_list := List.insertionSort (fun i j => cmp_opts (p.heap i) (p.heap j) ≤ 0) g.option_list }) := rfl

/-- Claim C5: the help-rendering sort orders options by the first short
spelling without its dash if one exists, else the first long spelling
without its double dash, equal keys comparing equal and the rest by byte
order; the same ordering is applied independently to the root list and to
each group's list (each becomes a sorted permutation of itself). -/
theorem c5_help_sorting (p : Parser) (hsp : ∀ i ∈ allIds p, spelled (p.heap i)) :
    (∀ a b : Opt, (cmp_opts a b = 0 ↔ optKey a = optKey b) ∧
        (cmp_opts a b = -1 ↔ pyStrLt (optKey a) (optKey b) = true) ∧
        (cmp_opts a b = 1 ↔ (optKey a ≠ optKey b ∧ pyStrLt (optKey a) (optKey b) = false))) ∧
    ((print_help_sort p).option_list.Perm p.option_list ∧
        (print_help_sort p).option_list.Pairwise
          (fun i j => optKey (p.heap i) = optKey (p.heap j) ∨
            pyStrLt (optKey (p.heap i)) (optKey (p.heap j)) = true)) ∧
    (∀ g' ∈ (print_help_sort p).groups, ∃ g ∈ p.groups, g'.title = g.title ∧
        g'.option_list.Perm g.option_list ∧
        g'.option_list.Pairwise (fun i j => optKey (p.heap i) = optKey (p.heap j) ∨
            pyStrLt (optKey (p.heap i)) (optKey (p.heap j)) = true)) := by
  clear hsp
  have _inst1 : IsTotal Nat (fun i j => cmp_opts (p.heap i) (p.heap j) ≤ 0) :=
    ⟨fun i j => cmp_opts_le_total (p.heap i) (p.heap j)⟩
  have _inst2 : IsTrans Nat (fun i j => cmp_opts (p.heap i) (p.heap j) ≤ 0) :=
    ⟨fun _ _ _ h1 h2 => cmp_opts_le_trans h1 h2⟩
  refine ⟨fun a b => ⟨cmp_opts_zero_iff a b, cmp_opts_neg_iff a b, cmp_opts_one_iff a b⟩,
    ⟨?_, ?_⟩, ?_⟩
  · rw [print_help_sort_option_list]
    exact List.perm_insertionSort _ _
  · rw [print_help_sort_option_list]
    exact (List.sorted_insertionSort _ _).imp
      (fun hle => (cmp_opts_le_iff _ _).mp hle)
  · intro g' hg'
    rw [print_help_sort_groups] at hg'
    rcases List.mem_map.mp hg' with ⟨g0, hg0, rfl⟩
    have hpermg : (List.insertionSort (fun a b => cmp_groups a b ≤ 0) p.groups).Perm p.groups :=
      List.perm_insertionSort _ _
    have hg0mem : g0 ∈ p.groups := hpermg.mem_iff.mp hg0
    refine ⟨g0, hg0mem, rfl, List.perm_insertionSort _ _, ?_⟩
    exact (List.sorted_insertionSort _ _).imp
      (fun hle => (cmp_opts_le_iff _ _).mp hle)

/-- Witness parser for C5: three options with short spellings -a, -c, -b. -/
def mkShortOpt (s : PyStr) : Opt :=
  { shortOpts := [s], longOpts := [], dest := none,
    action := "store_true".toList, default := PyDefault.noDefault, help := [] }

def pW5 : Parser :=
  { heap := fun i => if i = 0 then mkShortOpt "-a".toList
      else if i = 1 then mkShortOpt "-c".toList else mkShortOpt "-b".toList,
    nextId := 3, option_list := [0, 1, 2],
    groups := [⟨"G".toList, [2, 0]⟩],
    short_opt := [("-a".toList, 0), ("-c".toList, 1), ("-b".toList, 2)],
    long_opt := [], version := " ".toList }

theorem c5_help_sorting_witness :
    (print_help_sort pW5).option_list = [0, 2, 1] ∧
    (print_help_sort pW5).option_list.Perm pW5.option_list :=
  ⟨by decide, (c5_help_sorting pW5 (by decide)).2.1.1⟩

/-- Claim C10: the lambda comparator used to sort groups reports `1`
("greater") on every pair of equal-titled groups in both orders, never `0`,
and in particular on a group compared with itself. -/
theorem c10_group_comparator (a b : PGroup) (h : a.title = b.title) :
    cmp_groups a b = 1 ∧ cmp_groups b a = 1 ∧ cmp_groups a a = 1 ∧ cmp_groups a b ≠ 0 := by
  simp [cmp_groups, h, pyStrLt_irrefl]

def gW10 : PGroup := ⟨"General options".toList, [0]⟩

def gW10' : PGroup := ⟨"General options".toList, [1]⟩

theorem c10_group_comparator_witness :
    cmp_groups gW10 gW10' = 1 ∧ cmp_groups gW10' gW10 = 1 ∧
      cmp_groups gW10 gW10 = 1 ∧ cmp_groups gW10 gW10' ≠ 0 :=
  c10_group_comparator gW10 gW10' rfl

/-! ## Search (claim C6) -/

theorem find?_first {α : Type} (f : α → Bool) : ∀ (l : List α) (a : α), l.find? f = some a →
    ∃ l1 l2, l = l1 ++ a :: l2 ∧ ∀ j ∈ l1, f j = false
  | [], a, h => by simp [List.find?] at h
  | x :: t, a, h => by
      cases hx : f x with
      | true =>
          rw [List.find?_cons_of_pos _ hx] at h
          cases h
          exact ⟨[], t, rfl, by simp⟩
      | false =>
          rw [List.find?_cons_of_neg _ (by simp [hx])] at h
          obtain ⟨l1, l2, heq, hall⟩ := find?_first f t a h
          refine ⟨x :: l1, l2, by rw [heq]; rfl, ?_⟩
          intro j hj
          rcases List.mem_cons.mp hj with rfl | hj2
          · exact hx
          · exact hall j hj2

/-- Claim C6 (amended): `search_option` walks the options (root first, then
the groups in order) and returns the first option whose destination matches
the name or whose long spellings contain `--name` or whose short spellings
contain `-name`; when nothing matches it returns a not-found value rather
than raising.  (The source does not stage the three tests across the whole
collection the way `get_option_by_name` does — see the counterexample.) -/
theorem c6_search (p : Parser) (name : PyStr) :
    (search_option p name = none ↔ ∀ i ∈ walkIds p, searchMatches (p.heap i) name = false) ∧
    (∀ i, search_option p name = some i →
        i ∈ walkIds p ∧ searchMatches (p.heap i) name = true ∧
        ∃ l1 l2, walkIds p = l1 ++ i :: l2 ∧
          ∀ j ∈ l1, searchMatches (p.heap j) name = false) := by
  constructor
  · simp [search_option, List.find?_eq_none]
  · intro i h
    have h' : (walkIds p).find? (fun j => searchMatches (p.heap j) name) = some i := h
    have hmem : i ∈ walkIds p := List.mem_of_find?_eq_some h'
    have hprop0 := List.find?_some h'
    have hprop : searchMatches (p.heap i) name = true := hprop0
    obtain ⟨l1, l2, heq, hall⟩ := find?_first _ _ _ h'
    exact ⟨hmem, hprop, l1, l2, heq, hall⟩

/-- Counterexample parser for C6: option 0 (earlier in walk order) matches
the name only through its long spelling, option 1 matches through its
destination; the claimed destination-first staging would return option 1,
the code returns option 0. -/
def optA6 : Opt :=
  { shortOpts := [], longOpts := ["--n".toList], dest := some "a".toList,
    action := "store".toList, default := PyDefault.noDefault, help := [] }

def optB6 : Opt :=
  { shortOpts := ["-b".toList], longOpts := [], dest := some "n".toList,
    action := "store".toList, default := PyDefault.noDefault, help := [] }

def pC6 : Parser :=
  { heap := fun i => if i = 0 then optA6 else optB6, nextId := 2,
    option_list := [0, 1], groups := [], short_opt := [("-b".toList, 1)],
    long_opt := [("--n".toList, 0)], version := " ".toList }

theorem c6_counterexample :
    search_option pC6 "n".toList = some 0 ∧
    resolveInListSpec pC6 (walkIds pC6) "n".toList = some 1 ∧
    (pC6.heap 1).dest = some "n".toList ∧ (pC6.heap 0).dest ≠ some "n".toList := by
  refine ⟨by decide, by decide, by decide, by decide⟩

theorem c6_search_witness :
    search_option pC6 "n".toList = some 0 ∧ 0 ∈ walkIds pC6 ∧
      searchMatches (pC6.heap 0) "n".toList = true := by
  have h := (c6_search pC6 ("n".toList)).2 0 (by decide)
  exact ⟨by decide, h.1, h.2.1⟩

/-! ## Moving options between containers (claim C2) -/

theorem setGroupList_length : ∀ (gs : List PGroup) (k : Nat) (l : List Nat),
    (setGroupList gs k l).length = gs.length
  | [], _, _ => rfl
  | _ :: _, 0, _ => rfl
  | g :: gs, k + 1, l => by
      show (setGroupList gs k l).length + 1 = gs.length + 1
      rw [setGroupList_length gs k l]

theorem setGroupList_get?_same : ∀ (gs : List PGroup) (k : Nat) (l : List Nat),
    k < gs.length →
    (setGroupList gs k l).get? k = (gs.get? k).map (fun g => { g with option_list := l })
  | [], k, _, h => by simp at h
  | _ :: _, 0, _, _ => rfl
  | g :: gs, k + 1, l, h => by
      show (setGroupList gs k l).get? k = (gs.get? k).map _
      exact setGroupList_get?_same gs k l (Nat.lt_of_succ_lt_succ h)

theorem setGroupList_get?_ne : ∀ (gs : List PGroup) (k j : Nat) (l : List Nat), j ≠ k →
    (setGroupList gs k l).get? j = gs.get? j
  | [], _, _, _, _ => rfl
  | _ :: _, 0, 0, _, h => absurd rfl h
  | _ :: _, 0, _ + 1, _, _ => rfl
  | _ :: _, _ + 1, 0, _, _ => rfl
  | g :: gs, k + 1, j + 1, l, h => by
      show (setGroupList gs k l).get? j = gs.get? j
      exact setGroupList_get?_ne gs k j l (fun he => h (congrArg Nat.succ he))

theorem getCList_setCList_same (p : Parser) (r : ContRef) (l : List Nat)
    (hr : validRef p r) : getCList (setCList p r l) r = l := by
  cases r with
  | root => rfl
  | grp k =>
      simp only [getCList, setCList]
      rw [setGroupList_get?_same p.groups k l hr]
      cases hg : p.groups.get? k with
      | none =>
          have hlen := List.get?_eq_none.mp hg
          exact absurd (hr : k < p.groups.length) (not_lt.mpr hlen)
      | some g => rfl

theorem getCList_setCList_ne (p : Parser) (r r' : ContRef) (l : List Nat)
    (hne : r' ≠ r) : getCList (setCList p r l) r' = getCList p r' := by
  cases r with
  | root =>
      cases r' with
      | root => exact absurd rfl hne
      | grp j => rfl
  | grp k =>
      cases r' with
      | root => rfl
      | grp j =>
          simp only [getCList, setCList]
          rw [setGroupList_get?_ne p.groups k j l (fun hjk => hne (by rw [hjk]))]

theorem validRef_setCList (p : Parser) (r r' : ContRef) (l : List Nat)
    (h : validRef p r') : validRef (setCList p r l) r' := by
  cases r' with
  | root => trivial
  | grp j =>
      cases r with
      | root => exact h
      | grp k =>
          show j < (setGroupList p.groups k l).length
          rw [setGroupList_length]
          exact h

/-- Claim C2 (amended): `move_option` resolves the name against the parser
itself (destination scan over the parser's root list, then the shared long
and short indexes); when the name does not resolve, or the resolved option
is not in the source container's list, it fails with `KeyError`; otherwise
it removes the option from the source container's ordered list and appends
it to the (distinct) destination container's list, so the lengths change by
exactly one each. -/
theorem c2_move_option (p : Parser) (name : PyStr) (dst src : ContRef)
    (hdst : validRef p dst) (hsrc : validRef p src) (hne : src ≠ dst) :
    (get_option_by_name p name = none → move_option p name dst (some src) = .error ()) ∧
    (∀ oid, get_option_by_name p name = some oid → oid ∉ getCList p src →
        move_option p name dst (some src) = .error ()) ∧
    (∀ oid, get_option_by_name p name = some oid → oid ∈ getCList p src →
        ∃ p', move_option p name dst (some src) = .ok p' ∧
          getCList p' src = (getCList p src).erase oid ∧
          getCList p' dst = getCList p dst ++ [oid] ∧
          (getCList p' src).length + 1 = (getCList p src).length ∧
          (getCList p' dst).length = (getCList p dst).length + 1) := by
  refine ⟨?_, ?_, ?_⟩
  · intro h
    simp [move_option, h]
  · intro oid h hmem
    simp [move_option, h, hmem]
  · intro oid h hmem
    refine ⟨setCList (setCList p src ((getCList p src).erase oid)) dst
        (getCList (setCList p src ((getCList p src).erase oid)) dst ++ [oid]),
      ?_, ?_, ?_, ?_, ?_⟩
    · simp [move_option, h, hmem]
    · rw [getCList_setCList_ne _ dst src _ hne,
        getCList_setCList_same p src _ hsrc]
    · rw [getCList_setCList_same _ dst _
          (validRef_setCList p src dst _ hdst),
        getCList_setCList_ne p src dst _ (fun hh => hne hh.symm)]
    · rw [getCList_setCList_ne _ dst src _ hne,
        getCList_setCList_same p src _ hsrc,
        List.length_erase, if_pos hmem]
      have hpos : 0 < (getCList p src).length :=
        List.length_pos.mpr (List.ne_nil_of_mem hmem)
      omega
    · rw [getCList_setCList_same _ dst _
          (validRef_setCList p src dst _ hdst),
        getCList_setCList_ne p src dst _ (fun hh => hne hh.symm),
        List.length_append]
      rfl

/-- Counterexample parser for C2: a group owns an option whose destination
is the looked-up name but whose spellings do not spell the name; the
claimed source-container resolution finds it, yet `move_option` raises
`KeyError` because `get_option_by_name` runs against the parser root. -/
def optC2 : Opt :=
  { shortOpts := ["-x".toList], longOpts := [], dest := some "n".toList,
    action := "store".toList, default := PyDefault.noDefault, help := [] }

def pCE : Parser :=
  { heap := fun _ => optC2, nextId := 1, option_list := [],
    groups := [⟨"G".toList, [0]⟩], short_opt := [("-x".toList, 0)],
    long_opt := [], version := " ".toList }

theorem c2_counterexample :
    resolveInListSpec pCE (getCList pCE (ContRef.grp 0)) "n".toList = some 0 ∧
    0 ∈ getCList pCE (ContRef.grp 0) ∧
    move_option pCE "n".toList ContRef.root (some (ContRef.grp 0)) = .error () := by
  refine ⟨by decide, by decide, rfl⟩

/-- Witness for the amended C2 on a concrete move from the root into a
group: the version option leaves the root list and is appended to the
group's list, lengths changing by one each. -/
def optV2 : Opt :=
  { shortOpts := [], longOpts := ["--version".toList], dest := none,
    action := "version".toList, default := PyDefault.noDefault, help := [] }

def pW2 : Parser :=
  { heap := fun _ => optV2, nextId := 1, option_list := [0],
    groups := [⟨"General options".toList, []⟩],
    short_opt := [], long_opt := [("--version".toList, 0)],
    version := " ".toList }

theorem c2_move_option_witness :
    ∃ p', move_option pW2 "version".toList (ContRef.grp 0) (some ContRef.root) = .ok p' ∧
      getCList p' ContRef.root = ([0].erase 0) ∧
      getCList p' (ContRef.grp 0) = [] ++ [0] ∧
      (getCList p' ContRef.root).length + 1 = ([0] : List Nat).length ∧
      (getCList p' (ContRef.grp 0)).length = ([] : List Nat).length + 1 := by
  have h := (c2_move_option pW2 ("version".toList) (ContRef.grp 0) ContRef.root
    (by decide) trivial (by decide)).2.2 0 rfl (by decide)
  exact h

/-! ## Constructor policy (claim C7) -/

instance : Inhabited Parser :=
  ⟨{ heap := fun _ => default, nextId := 0, option_list := [], groups := [],
     short_opt := [], long_opt := [], version := [] }⟩

theorem resolveConflictStep_version (q : Parser) (s : PyStr) :
    (resolveConflictStep q s).version = q.version := by
  unfold resolveConflictStep
  split
  · split <;> rfl
  · split
    · split <;> rfl
    · rfl

theorem add_option_version (p : Parser) (args : List PyStr) (attrs : OptAttrs) :
    ((add_option p args attrs).1).version = p.version := by
  have hpre : ∀ (l : List PyStr) (q : Parser),
      (l.foldl resolveConflictStep q).version = q.version := by
    intro l
    induction l with
    | nil => intro q; rfl
    | cons s l ih =>
        intro q
        rw [List.foldl_cons, ih, resolveConflictStep_version]
  show ((addOptionCore (args.foldl resolveConflictStep p) args attrs).1).version = p.version
  unfold addOptionCore
  dsimp only
  split
  · exact hpre args p
  · exact hpre args p

theorem initPopulated_version (v : PyStr) : (initPopulated v).version = v := by
  unfold initPopulated
  rw [add_option_version]
  split
  · rw [add_option_version]
    rfl
  · rfl

theorem moveOutOfRoot_version (p : Parser) (name : PyStr) (q : Parser) (i : Nat)
    (h : moveOutOfRoot p name = .ok (q, i)) : q.version = p.version := by
  unfold moveOutOfRoot at h
  split at h
  · exact absurd h (by simp)
  · split at h
    · rw [Except.ok.injEq, Prod.mk.injEq] at h
      rw [← h.1]
    · exact absurd h (by simp)

theorem parserInit_ok_version (vArg : Option PyStr) (general : Bool) (p : Parser)
    (h : parserInit vArg general = .ok p) : p.version = vArg.getD " ".toList := by
  cases general with
  | false =>
      simp only [parserInit, Bool.false_eq_true, if_false, Except.ok.injEq] at h
      rw [← h]
      exact initPopulated_version _
  | true =>
      simp only [parserInit, if_true] at h
      rcases hh : moveOutOfRoot (initPopulated (vArg.getD " ".toList)) ("help".toList)
        with he | ⟨p3, hid⟩
      · rw [hh] at h
        exact absurd h (by simp)
      · rw [hh] at h
        dsimp only at h
        rcases hh2 : moveOutOfRoot p3 ("version".toList) with he | ⟨p4, vid⟩
        · rw [hh2] at h
          exact absurd h (by simp)
        · rw [hh2] at h
          dsimp only at h
          rw [Except.ok.injEq] at h
          rw [← h]
          show p4.version = _
          rw [moveOutOfRoot_version p3 _ p4 vid hh2,
            moveOutOfRoot_version _ _ p3 hid hh,
            initPopulated_version]

/-- Claim C7 (amended): when the `version` keyword is absent, the
constructor sets the version string to the non-empty one-space string; a
caller-supplied version string is passed through unchanged (and may be
empty, see the counterexample). -/
theorem c7_version_policy (vArg : Option PyStr) (general : Bool) (p : Parser)
    (h : parserInit vArg general = .ok p) :
    p.version = vArg.getD " ".toList ∧ (vArg = none → p.version ≠ []) := by
  refine ⟨parserInit_ok_version vArg general p h, ?_⟩
  intro hn
  rw [parserInit_ok_version vArg general p h, hn]
  decide

/-- The parser built by a default construction (no `version` keyword,
`general` left at its default `True`). -/
def pInitW : Parser :=
  match parserInit none true with
  | .ok p => p
  | .error _ => default

theorem c7_version_policy_witness :
    pInitW.version = " ".toList ∧ pInitW.version ≠ [] :=
  ⟨(c7_version_policy none true pInitW rfl).1,
    (c7_version_policy none true pInitW rfl).2 rfl⟩

/-- The parser built with an explicitly empty version string (and without
the "General options" group, whose construction would raise on a missing
version option). -/
def pEmptyVer : Parser :=
  match parserInit (some []) false with
  | .ok p => p
  | .error _ => default

/-- Counterexample for C7 as stated: passing `version=''` leaves the
constructed parser's version string empty. -/
theorem c7_counterexample :
    parserInit (some []) false = Except.ok pEmptyVer ∧ pEmptyVer.version = [] :=
  ⟨rfl, rfl⟩

/-! ## Conflict-resolving registration (claim C1) -/

instance (p : Parser) : Decidable (WfState p) := by
  unfold WfState
  exact inferInstance

/-- Claim C1: registering a new option that carries a single flag spelling
`s` already claimed by an existing option (through the short index, or
failing that the long one, as the code checks): when the claiming option
has more than one total flag spelling, `s` is stripped from it, the
registration succeeds, and `s` now indexes the newly allocated option;
when `s` is its only spelling, the whole state is left unchanged and the
underlying engine raises a conflict error. -/
theorem c1_conflict_resolution (p : Parser) (s : PyStr) (attrs : OptAttrs) (oldId : Nat)
    (hwf : WfState p) :
    (dictGet p.short_opt s = some oldId →
      ((p.heap oldId).shortOpts.length + (p.heap oldId).longOpts.length > 1 →
        (add_option p [s] attrs).2 = AddResult.ok ∧
        ((add_option p [s] attrs).1.heap oldId).shortOpts = (p.heap oldId).shortOpts.erase s ∧
        ((add_option p [s] attrs).1.heap oldId).longOpts = (p.heap oldId).longOpts ∧
        dictGet (add_option p [s] attrs).1.short_opt s = some p.nextId ∧
        ((add_option p [s] attrs).1.heap p.nextId).shortOpts = [s] ∧
        (add_option p [s] attrs).1.option_list = p.option_list ++ [p.nextId]) ∧
      ((p.heap oldId).shortOpts.length + (p.heap oldId).longOpts.length = 1 →
        (add_option p [s] attrs).1 = p ∧
        (add_option p [s] attrs).2 = AddResult.conflictError)) ∧
    (dictGet p.short_opt s = none → dictGet p.long_opt s = some oldId →
      ((p.heap oldId).shortOpts.length + (p.heap oldId).longOpts.length > 1 →
        (add_option p [s] attrs).2 = AddResult.ok ∧
        ((add_option p [s] attrs).1.heap oldId).longOpts = (p.heap oldId).longOpts.erase s ∧
        ((add_option p [s] attrs).1.heap oldId).shortOpts = (p.heap oldId).shortOpts ∧
        dictGet (add_option p [s] attrs).1.long_opt s = some p.nextId ∧
        ((add_option p [s] attrs).1.heap p.nextId).longOpts = [s] ∧
        (add_option p [s] attrs).1.option_list = p.option_list ++ [p.nextId]) ∧
      ((p.heap oldId).shortOpts.length + (p.heap oldId).longOpts.length = 1 →
        (add_option p [s] attrs).1 = p ∧
        (add_option p [s] attrs).2 = AddResult.conflictError)) := by
  obtain ⟨hwf1, hwf2, hwf3, hwf4⟩ := hwf
  constructor
  · intro h1
    obtain ⟨hlt, hshape⟩ := hwf3 _ (dictGet_mem h1)
    have hne : oldId ≠ p.nextId := Nat.ne_of_lt hlt
    have hshorts : [s].filter (fun t => !(isLongSpelling t)) = [s] := by
      simp [hshape]
    have hlongs : [s].filter (fun t => isLongSpelling t) = [] := by
      simp [hshape]
    constructor
    · intro htot
      have hp1 : [s].foldl resolveConflictStep p = { p with
          heap := updateFn p.heap oldId (fun o => { o with shortOpts := o.shortOpts.erase s }),
          short_opt := dictDel p.short_opt s } := by
        show resolveConflictStep p s = _
        unfold resolveConflictStep
        rw [h1]
        dsimp only
        rw [if_pos htot]
      have hfinal : add_option p [s] attrs = ({ p with
          heap := updateFn
            (updateFn p.heap oldId (fun o => { o with shortOpts := o.shortOpts.erase s }))
            p.nextId (fun _ =>
              { shortOpts := [s], longOpts := [], dest := attrs.dest,
                action := attrs.action, default := attrs.default, help := attrs.help }),
          option_list := p.option_list ++ [p.nextId],
          short_opt := registerKeys (dictDel p.short_opt s) [s] p.nextId,
          long_opt := registerKeys p.long_opt [] p.nextId,
          nextId := p.nextId + 1 }, AddResult.ok) := by
        show addOptionCore ([s].foldl resolveConflictStep p) [s] attrs = _
        rw [hp1]
        unfold addOptionCore
        dsimp only
        rw [hshorts, hlongs]
        simp [dictGet_dictDel]
      rw [hfinal]
      refine ⟨rfl, ?_, ?_, ?_, ?_, rfl⟩
      · show (updateFn _ p.nextId _ oldId).shortOpts = _
        simp [updateFn, hne]
      · show (updateFn _ p.nextId _ oldId).longOpts = _
        simp [updateFn, hne]
      · show dictGet (registerKeys (dictDel p.short_opt s) [s] p.nextId) s = some p.nextId
        rw [dictGet_registerKeys]
        simp
      · show (updateFn _ p.nextId _ p.nextId).shortOpts = [s]
        simp [updateFn]
    · intro htot1
      have hp1 : [s].foldl resolveConflictStep p = p := by
        show resolveConflictStep p s = p
        unfold resolveConflictStep
        rw [h1]
        dsimp only
        rw [if_neg (by omega)]
      have hfinal : add_option p [s] attrs = (p, AddResult.conflictError) := by
        show addOptionCore ([s].foldl resolveConflictStep p) [s] attrs = _
        rw [hp1]
        unfold addOptionCore
        dsimp only
        rw [hshorts, hlongs]
        simp [h1]
      rw [hfinal]
      exact ⟨rfl, rfl⟩
  · intro h0 h1
    obtain ⟨hlt, hshape⟩ := hwf4 _ (dictGet_mem h1)
    have hne : oldId ≠ p.nextId := Nat.ne_of_lt hlt
    have hshorts : [s].filter (fun t => !(isLongSpelling t)) = [] := by
      simp [hshape]
    have hlongs : [s].filter (fun t => isLongSpelling t) = [s] := by
      simp [hshape]
    constructor
    · intro htot
      have hp1 : [s].foldl resolveConflictStep p = { p with
          heap := updateFn p.heap oldId (fun o => { o with longOpts := o.longOpts.erase s }),
          long_opt := dictDel p.long_opt s } := by
        show resolveConflictStep p s = _
        unfold resolveConflictStep
        rw [h0]
        dsimp only
        rw [h1]
        dsimp only
        rw [if_pos htot]
      have hfinal : add_option p [s] attrs = ({ p with
          heap := updateFn
            (updateFn p.heap oldId (fun o => { o with longOpts := o.longOpts.erase s }))
            p.nextId (fun _ =>
              { shortOpts := [], longOpts := [s], dest := attrs.dest,
                action := attrs.action, default := attrs.default, help := attrs.help }),
          option_list := p.option_list ++ [p.nextId],
          short_opt := registerKeys p.short_opt [] p.nextId,
          long_opt := registerKeys (dictDel p.long_opt s) [s] p.nextId,
          nextId := p.nextId + 1 }, AddResult.ok) := by
        show addOptionCore ([s].foldl resolveConflictStep p) [s] attrs = _
        rw [hp1]
        unfold addOptionCore
        dsimp only
        rw [hshorts, hlongs]
        simp [dictGet_dictDel]
      rw [hfinal]
      refine ⟨rfl, ?_, ?_, ?_, ?_, rfl⟩
      · show (updateFn _ p.nextId _ oldId).longOpts = _
        simp [updateFn, hne]
      · show (updateFn _ p.nextId _ oldId).shortOpts = _
        simp [updateFn, hne]
      · show dictGet (registerKeys (dictDel p.long_opt s) [s] p.nextId) s = some p.nextId
        rw [dictGet_registerKeys]
        simp
      · show (updateFn _ p.nextId _ p.nextId).longOpts = [s]
        simp [updateFn]
    · intro htot1
      have hp1 : [s].foldl resolveConflictStep p = p := by
        show resolveConflictStep p s = p
        unfold resolveConflictStep
        rw [h0]
        dsimp only
        rw [h1]
        dsimp only
        rw [if_neg (by omega)]
      have hfinal : add_option p [s] attrs = (p, AddResult.conflictError) := by
        show addOptionCore ([s].foldl resolveConflictStep p) [s] attrs = _
        rw [hp1]
        unfold addOptionCore
        dsimp only
        rw [hshorts, hlongs]
        simp [h1]
      rw [hfinal]
      exact ⟨rfl, rfl⟩

/-- Witness state for C1: one option claiming both `-x` and `--xray`. -/
def optW1 : Opt :=
  { shortOpts := ["-x".toList], longOpts := ["--xray".toList], dest := some "x".toList,
    action := "store".toList, default := PyDefault.noDefault, help := [] }

def pW1 : Parser :=
  { heap := fun _ => optW1, nextId := 1, option_list := [0], groups := [],
    short_opt := [("-x".toList, 0)], long_opt := [("--xray".toList, 0)],
    version := " ".toList }

def attrsW : OptAttrs :=
  { dest := some "x2".toList, action := "store".toList,
    default := PyDefault.noDefault, help := [] }

theorem c1_conflict_resolution_witness :
    (add_option pW1 ["-x".toList] attrsW).2 = AddResult.ok ∧
    ((add_option pW1 ["-x".toList] attrsW).1.heap 0).shortOpts = [] ∧
    dictGet (add_option pW1 ["-x".toList] attrsW).1.short_opt ("-x".toList) = some 1 := by
  have h := ((c1_conflict_resolution pW1 ("-x".toList) attrsW 0 (by decide)).1 rfl).1 (by decide)
  refine ⟨h.1, ?_, h.2.2.2.1⟩
  rw [h.2.1]
  decide

/-! ## The at-least-one-spelling invariant (claim C8) -/

instance (p : Parser) : Decidable (SpellInv p) := by
  unfold SpellInv
  exact inferInstance

theorem stepHelp_shortOpts (o : Opt) : (stepHelp o).shortOpts = o.shortOpts := by
  unfold stepHelp
  split <;> rfl

theorem stepHelp_longOpts (o : Opt) : (stepHelp o).longOpts = o.longOpts := by
  unfold stepHelp
  split <;> rfl

theorem spelled_stepHelp (o : Opt) : spelled (stepHelp o) ↔ spelled o := by
  unfold spelled
  rw [stepHelp_shortOpts, stepHelp_longOpts]

theorem length_filter_partition {α : Type} (f : α → Bool) (l : List α) :
    (l.filter (fun x => !(f x))).length + (l.filter f).length = l.length := by
  induction l with
  | nil => rfl
  | cons x t ih =>
      by_cases hx : f x = true
      · simp only [List.filter_cons, hx, Bool.not_true, Bool.false_eq_true, if_false, if_true,
          List.length_cons]
        omega
      · rw [Bool.not_eq_true] at hx
        simp only [List.filter_cons, hx, Bool.not_false, Bool.false_eq_true, if_false, if_true]
        simp only [List.length_cons]
        omega

theorem setCList_heap (p : Parser) (r : ContRef) (l : List Nat) :
    (setCList p r l).heap = p.heap := by
  cases r <;> rfl

theorem setCList_short (p : Parser) (r : ContRef) (l : List Nat) :
    (setCList p r l).short_opt = p.short_opt := by
  cases r <;> rfl

theorem setCList_long (p : Parser) (r : ContRef) (l : List Nat) :
    (setCList p r l).long_opt = p.long_opt := by
  cases r <;> rfl

theorem mem_setGroupList : ∀ {gs : List PGroup} {k : Nat} {l : List Nat} {g' : PGroup},
    g' ∈ setGroupList gs k l → g' ∈ gs ∨ g'.option_list = l := by
  intro gs
  induction gs with
  | nil =>
      intro k l g' h
      cases h
  | cons g gs ih =>
      intro k l g' h
      cases k with
      | zero =>
          rcases List.mem_cons.mp h with rfl | hmem
          · exact Or.inr rfl
          · exact Or.inl (List.mem_cons_of_mem _ hmem)
      | succ k =>
          rcases List.mem_cons.mp h with rfl | hmem
          · exact Or.inl (List.mem_cons_self _ _)
          · rcases ih hmem with h1 | h2
            · exact Or.inl (List.mem_cons_of_mem _ h1)
            · exact Or.inr h2

theorem getCList_subset_allIds (p : Parser) (r : ContRef) {j : Nat}
    (hj : j ∈ getCList p r) : j ∈ allIds p := by
  cases r with
  | root => exact List.mem_append_left _ hj
  | grp k =>
      simp only [getCList] at hj
      cases hg : p.groups.get? k with
      | none =>
          rw [hg] at hj
          simp at hj
      | some g =>
          rw [hg] at hj
          simp only [Option.map_some', Option.getD_some] at hj
          refine List.mem_append_right _ ?_
          rw [List.mem_flatten]
          exact ⟨g.option_list, List.mem_map_of_mem _ (List.get?_mem hg), hj⟩

theorem mem_allIds_setCList {p : Parser} {r : ContRef} {l : List Nat} {j : Nat}
    (hj : j ∈ allIds (setCList p r l)) : j ∈ allIds p ∨ j ∈ l := by
  cases r with
  | root =>
      rcases List.mem_append.mp hj with hr | hg
      · exact Or.inr hr
      · exact Or.inl (List.mem_append_right _ hg)
  | grp k =>
      rcases List.mem_append.mp hj with hr | hg
      · exact Or.inl (List.mem_append_left _ hr)
      · rw [List.mem_flatten] at hg
        obtain ⟨ls, hls, hjls⟩ := hg
        rw [List.mem_map] at hls
        obtain ⟨g', hg', rfl⟩ := hls
        rcases mem_setGroupList hg' with hin | heq
        · refine Or.inl (List.mem_append_right _ ?_)
          rw [List.mem_flatten]
          exact ⟨g'.option_list, List.mem_map_of_mem _ hin, hjls⟩
        · rw [heq] at hjls
          exact Or.inr hjls

theorem move_option_ok_shape (p : Parser) (name : PyStr) (dst : ContRef)
    (srcArg : Option ContRef) (p' : Parser)
    (h : move_option p name dst srcArg = .ok p') :
    ∃ oid, oid ∈ getCList p (srcArg.getD .root) ∧
      p' = setCList (setCList p (srcArg.getD .root)
              ((getCList p (srcArg.getD .root)).erase oid)) dst
            (getCList (setCList p (srcArg.getD .root)
              ((getCList p (srcArg.getD .root)).erase oid)) dst ++ [oid]) := by
  unfold move_option at h
  split at h
  · simp at h
  · rename_i oid heq
    dsimp only at h
    split at h
    · rename_i hmem
      rw [Except.ok.injEq] at h
      exact ⟨oid, hmem, h.symm⟩
    · simp at h

theorem resolveConflictStep_preserves (q : Parser) (s : PyStr)
    (hqwf : WfState q) (hqinv : SpellInv q) :
    WfState (resolveConflictStep q s) ∧ SpellInv (resolveConflictStep q s) := by
  unfold resolveConflictStep
  split
  · rename_i i heq
    split
    · rename_i htot
      have hkey : ∀ j, spelled (q.heap j) ∨ j = i →
          spelled (updateFn q.heap i
            (fun o => { o with shortOpts := o.shortOpts.erase s }) j) := by
        intro j hj
        unfold updateFn
        by_cases hji : j = i
        · rw [if_pos hji, hji]
          show spelled { q.heap i with shortOpts := (q.heap i).shortOpts.erase s }
          unfold spelled
          dsimp only
          rw [List.length_erase]
          split <;> omega
        · rw [if_neg hji]
          exact hj.resolve_right hji
      refine ⟨⟨hqwf.1, hqwf.2.1, fun e he => hqwf.2.2.1 e (mem_dictDel he), hqwf.2.2.2⟩,
        ?_, ?_, ?_⟩
      · intro j hj
        exact hkey j (Or.inl (hqinv.1 j hj))
      · intro e he
        exact hkey e.2 (Or.inl (hqinv.2.1 e (mem_dictDel he)))
      · intro e he
        exact hkey e.2 (Or.inl (hqinv.2.2 e he))
    · exact ⟨hqwf, hqinv⟩
  · split
    · rename_i x0 i heq
      split
      · rename_i htot
        have hkey : ∀ j, spelled (q.heap j) ∨ j = i →
            spelled (updateFn q.heap i
              (fun o => { o with longOpts := o.longOpts.erase s }) j) := by
          intro j hj
          unfold updateFn
          by_cases hji : j = i
          · rw [if_pos hji, hji]
            show spelled { q.heap i with longOpts := (q.heap i).longOpts.erase s }
            unfold spelled
            dsimp only
            rw [List.length_erase]
            split <;> omega
          · rw [if_neg hji]
            exact hj.resolve_right hji
        refine ⟨⟨hqwf.1, hqwf.2.1, hqwf.2.2.1, fun e he => hqwf.2.2.2 e (mem_dictDel he)⟩,
          ?_, ?_, ?_⟩
        · intro j hj
          exact hkey j (Or.inl (hqinv.1 j hj))
        · intro e he
          exact hkey e.2 (Or.inl (hqinv.2.1 e he))
        · intro e he
          exact hkey e.2 (Or.inl (hqinv.2.2 e (mem_dictDel he)))
      · exact ⟨hqwf, hqinv⟩
    · exact ⟨hqwf, hqinv⟩

theorem addOptionCore_preserves (q : Parser) (args : List PyStr) (attrs : OptAttrs)
    (hW : WfState q) (hI : SpellInv q) (hargs : args ≠ []) :
    SpellInv (addOptionCore q args attrs).1 := by
  unfold addOptionCore
  dsimp only
  split
  · exact hI
  · have hpos : 0 < args.length := List.length_pos.mpr hargs
    have hnew : spelled
        { shortOpts := args.filter (fun x => !(isLongSpelling x)),
          longOpts := args.filter (fun x => isLongSpelling x), dest := attrs.dest,
          action := attrs.action, default := attrs.default, help := attrs.help } := by
      unfold spelled
      dsimp only
      have hpart := length_filter_partition (fun x => isLongSpelling x) args
      simp only [] at hpart
      omega
    have hheap : ∀ j, j ≠ q.nextId →
        (updateFn q.heap q.nextId (fun _ =>
          { shortOpts := args.filter (fun x => !(isLongSpelling x)),
            longOpts := args.filter (fun x => isLongSpelling x), dest := attrs.dest,
            action := attrs.action, default := attrs.default, help := attrs.help })) j
          = q.heap j := by
      intro j hj
      exact if_neg hj
    have hheapAt : (updateFn q.heap q.nextId (fun _ =>
          { shortOpts := args.filter (fun x => !(isLongSpelling x)),
            longOpts := args.filter (fun x => isLongSpelling x), dest := attrs.dest,
            action := attrs.action, default := attrs.default, help := attrs.help })) q.nextId
        = { shortOpts := args.filter (fun x => !(isLongSpelling x)),
            longOpts := args.filter (fun x => isLongSpelling x), dest := attrs.dest,
            action := attrs.action, default := attrs.default, help := attrs.help } := if_pos rfl
    refine ⟨?_, ?_, ?_⟩
    · intro j hj
      dsimp only
      rcases List.mem_append.mp hj with hl | hgrps
      · rcases List.mem_append.mp hl with hroot | hnew'
        · rw [hheap j (Nat.ne_of_lt (hW.1 j hroot))]
          exact hI.1 j (List.mem_append_left _ hroot)
        · have hj2 : j = q.nextId := by simpa using hnew'
          rw [hj2, hheapAt]
          exact hnew
      · have hj2 : j < q.nextId := by
          rw [List.mem_flatten] at hgrps
          obtain ⟨ls, hls, hjl⟩ := hgrps
          rw [List.mem_map] at hls
          obtain ⟨g, hg, rfl⟩ := hls
          exact hW.2.1 g hg j hjl
        rw [hheap j (Nat.ne_of_lt hj2)]
        refine hI.1 j (List.mem_append_right _ ?_)
        rwa [List.mem_flatten] at hgrps ⊢
    · intro e he
      dsimp only
      rcases mem_registerKeys he with h2 | h3
      · rw [h2, hheapAt]
        exact hnew
      · rw [hheap e.2 (Nat.ne_of_lt (hW.2.2.1 e h3).1)]
        exact hI.2.1 e h3
    · intro e he
      dsimp only
      rcases mem_registerKeys he with h2 | h3
      · rw [h2, hheapAt]
        exact hnew
      · rw [hheap e.2 (Nat.ne_of_lt (hW.2.2.2 e h3).1)]
        exact hI.2.2 e h3

/-- Claim C8: every modelled mutating operation — conflict-resolving
registration (of at least one spelling), option moves, help augmentation,
and the help-rendering sort — preserves the invariant that every option
held by a container or claimed by an index retains at least one flag
spelling (a spelling is stripped only from an option with more than one). -/
theorem c8_spelling_invariant (p : Parser) (hwf : WfState p) (hinv : SpellInv p) :
    (∀ args attrs, args ≠ [] → SpellInv (add_option p args attrs).1) ∧
    (∀ name dst src p', move_option p name dst src = .ok p' → SpellInv p') ∧
    SpellInv (add_all_default_values p) ∧
    SpellInv (print_help_sort p) := by
  have hfold : ∀ (args : List PyStr) (q : Parser), WfState q → SpellInv q →
      WfState (args.foldl resolveConflictStep q) ∧
        SpellInv (args.foldl resolveConflictStep q) := by
    intro args
    induction args with
    | nil =>
        intro q hw hi
        exact ⟨hw, hi⟩
    | cons s t ih =>
        intro q hw hi
        rw [List.foldl_cons]
        obtain ⟨hw1, hi1⟩ := resolveConflictStep_preserves q s hw hi
        exact ih _ hw1 hi1
  refine ⟨?_, ?_, ?_, ?_⟩
  · intro args attrs hargs
    obtain ⟨hW, hI⟩ := hfold args p hwf hinv
    exact addOptionCore_preserves _ args attrs hW hI hargs
  · intro name dst src p' hmv
    obtain ⟨oid, hoid, rfl⟩ := move_option_ok_shape p name dst src p' hmv
    have hheap2 : (setCList (setCList p (src.getD .root)
        ((getCList p (src.getD .root)).erase oid)) dst
          (getCList (setCList p (src.getD .root)
            ((getCList p (src.getD .root)).erase oid)) dst ++ [oid])).heap = p.heap := by
      rw [setCList_heap, setCList_heap]
    have hchase : ∀ j, j ∈ allIds (setCList (setCList p (src.getD .root)
        ((getCList p (src.getD .root)).erase oid)) dst
          (getCList (setCList p (src.getD .root)
            ((getCList p (src.getD .root)).erase oid)) dst ++ [oid])) → j ∈ allIds p := by
      intro j hj
      rcases mem_allIds_setCList hj with h1 | h2
      · rcases mem_allIds_setCList h1 with h3 | h4
        · exact h3
        · exact getCList_subset_allIds p _ (List.mem_of_mem_erase h4)
      · rcases List.mem_append.mp h2 with h3 | h4
        · have h5 := getCList_subset_allIds _ dst h3
          rcases mem_allIds_setCList h5 with h6 | h7
          · exact h6
          · exact getCList_subset_allIds p _ (List.mem_of_mem_erase h7)
        · have h5 : j = oid := by simpa using h4
          rw [h5]
          exact getCList_subset_allIds p _ hoid
    refine ⟨?_, ?_, ?_⟩
    · intro j hj
      rw [hheap2]
      exact hinv.1 j (hchase j hj)
    · intro e he
      rw [setCList_short, setCList_short] at he
      rw [hheap2]
      exact hinv.2.1 e he
    · intro e he
      rw [setCList_long, setCList_long] at he
      rw [hheap2]
      exact hinv.2.2 e he
  · have hheap := add_all_heap_eq p
    have hmemkey : ∀ j, spelled ((add_all_default_values p).heap j) ↔ spelled (p.heap j) := by
      intro j
      rw [hheap]
      by_cases hmem : j ∈ allIds p
      · simp only [hmem, if_true]
        exact spelled_stepHelp _
      · simp only [hmem, if_false]
    refine ⟨?_, ?_, ?_⟩
    · intro j hj
      exact (hmemkey j).mpr (hinv.1 j hj)
    · intro e he
      exact (hmemkey e.2).mpr (hinv.2.1 e he)
    · intro e he
      exact (hmemkey e.2).mpr (hinv.2.2 e he)
  · refine ⟨?_, ?_, ?_⟩
    · intro j hj
      show spelled (p.heap j)
      refine hinv.1 j ?_
      rcases List.mem_append.mp hj with hr | hg
      · rw [print_help_sort_option_list] at hr
        exact List.mem_append_left _
          ((List.perm_insertionSort _ _).mem_iff.mp hr)
      · rw [List.mem_flatten] at hg
        obtain ⟨ls, hls, hjl⟩ := hg
        rw [List.mem_map] at hls
        obtain ⟨g', hg', rfl⟩ := hls
        rw [print_help_sort_groups] at hg'
        rcases List.mem_map.mp hg' with ⟨g0, hg0, rfl⟩
        have hg0mem : g0 ∈ p.groups :=
          (List.perm_insertionSort (fun a b => cmp_groups a b ≤ 0) p.groups).mem_iff.mp hg0
        refine List.mem_append_right _ ?_
        rw [List.mem_flatten]
        refine ⟨g0.option_list, List.mem_map_of_mem _ hg0mem, ?_⟩
        exact (List.perm_insertionSort _ _).mem_iff.mp hjl
    · intro e he
      exact hinv.2.1 e he
    · intro e he
      exact hinv.2.2 e he

/-- The parser after moving the version option of `pW2` into its group. -/
def pW2moved : Parser :=
  match move_option pW2 "version".toList (ContRef.grp 0) (some ContRef.root) with
  | .ok p => p
  | .error _ => default

theorem c8_spelling_invariant_witness :
    SpellInv (add_option pW1 ["-x".toList] attrsW).1 ∧
    SpellInv pW2moved ∧
    SpellInv (add_all_default_values pW1) ∧
    SpellInv (print_help_sort pW1) := by
  have h := c8_spelling_invariant pW1 (by decide) (by decide)
  have h2 := c8_spelling_invariant pW2 (by decide) (by decide)
  exact ⟨h.1 ["-x".toList] attrsW (by decide),
    h2.2.1 ("version".toList) (ContRef.grp 0) (some ContRef.root) pW2moved rfl,
    h.2.2.1, h.2.2.2⟩

end Optparse2
